import Mathlib

/-!
Verification of the XML formatting engine of the `xml-language-features`
language server (`xmlServer.ts`).  The engine is embedded shallowly:
strings are Lean `String`s (lists of characters), the per-line loop of
`formatXml` becomes a structurally recursive function over the list of
physical lines, and the machine state of the walk (the `depth` counter and
the `preserveWhitespace` flag) is an explicit `Int × Bool` pair, with the
`Math.max(0, depth - 1)` clamp of the source kept as an `Int` operation.
-/

/-- Whitespace recognised by the embedding of JavaScript `trim`/`trimEnd`
(the character classes that actually occur in the formatter inputs). -/
def isWsChar (c : Char) : Bool := c = ' ' || c = '\t' || c = '\n' || c = '\r'

/-- `trim` on a character list: drop whitespace on both ends. -/
def trimList (l : List Char) : List Char :=
  ((l.dropWhile isWsChar).reverse.dropWhile isWsChar).reverse

/-- Embedding of JavaScript `String.prototype.trim`. -/
def trimStr (s : String) : String := String.mk (trimList s.data)

/-- `trimEnd` on a character list: drop whitespace on the right end. -/
def trimEndList (l : List Char) : List Char :=
  (l.reverse.dropWhile isWsChar).reverse

/-- Embedding of JavaScript `String.prototype.trimEnd`. -/
def trimEndStr (s : String) : String := String.mk (trimEndList s.data)

/-- Boolean list-prefix test (first argument is the candidate prefix). -/
def listPrefixOf : List Char → List Char → Bool
  | [], _ => true
  | _ :: _, [] => false
  | a :: as, b :: bs => a == b && listPrefixOf as bs

/-- Boolean list-infix test (first argument is the candidate infix). -/
def listInfixOf (p : List Char) : List Char → Bool
  | [] => listPrefixOf p []
  | c :: cs => listPrefixOf p (c :: cs) || listInfixOf p cs

/-- Embedding of JavaScript `String.prototype.startsWith`. -/
def startsWithStr (s p : String) : Bool := listPrefixOf p.data s.data

/-- Embedding of JavaScript `String.prototype.endsWith`. -/
def endsWithStr (s p : String) : Bool := listPrefixOf p.data.reverse s.data.reverse

/-- Embedding of JavaScript `String.prototype.includes`. -/
def strContains (s p : String) : Bool := listInfixOf p.data s.data

/-- Embedding of JavaScript `String.prototype.repeat`. -/
def strRepeat (s : String) : Nat → String
  | 0 => ""
  | n + 1 => s ++ strRepeat s n

/-- Prepend a character to the first piece of a piece list. -/
def consHead (c : Char) : List (List Char) → List (List Char)
  | [] => [[c]]
  | l :: ls => (c :: l) :: ls

/-- Split a character list at every `'\n'`; pieces keep every other
character.  Never returns `[]`. -/
def splitNlChar : List Char → List (List Char)
  | [] => [[]]
  | c :: cs =>
    if c = '\n' then [] :: splitNlChar cs
    else consHead c (splitNlChar cs)

/-- Drop one trailing `'\r'` from a piece, if present. -/
def dropTrailCr (p : List Char) : List Char :=
  if p.getLast? = some '\r' then p.dropLast else p

/-- A `'\r'` immediately before a split point belongs to the separator
`\r\n`; the last piece was not followed by a separator and keeps its
characters. -/
def stripCrPieces : List (List Char) → List (List Char)
  | [] => []
  | [p] => [p]
  | p :: ps => dropTrailCr p :: stripCrPieces ps

/-- Embedding of `content.split(/\r?\n/)` from the source. -/
def splitLines (s : String) : List String :=
  (stripCrPieces (splitNlChar s.data)).map String.mk

/-! ## Data model (the `Settings` interface and LSP shapes of `xmlServer.ts`) -/

/-- `xml.format` settings block of the `Settings` interface.  Optional
fields are `Option`s; `maxPreserveNewLines : number | null` becomes
`Option (Option Int)` (outer `none` = absent, `some none` = null). -/
structure XmlFormatSettings where
  enable : Option Bool
  wrapLineLength : Option Nat
  preserveNewLines : Option Bool
  maxPreserveNewLines : Option (Option Int)
  indentInnerXml : Option Bool
  wrapAttributes : Option String
  wrapAttributesIndentSize : Option (Option Nat)
  unformattedContentDelimiter : Option String
deriving DecidableEq

/-- `xml.suggest` settings block. -/
structure XmlSuggestSettings where
  enabled : Option Bool
deriving DecidableEq

/-- `xml.validate` settings block. -/
structure XmlValidateSettings where
  enabled : Option Bool
deriving DecidableEq

/-- `xml.hover` settings block. -/
structure XmlHoverSettings where
  documentation : Option Bool
deriving DecidableEq

/-- The `xml` section of the `Settings` interface. -/
structure XmlSettings where
  format : Option XmlFormatSettings
  suggest : Option XmlSuggestSettings
  validate : Option XmlValidateSettings
  autoClosingTags : Option Bool
  hover : Option XmlHoverSettings
deriving DecidableEq

/-- The resolved `Settings` value handed to the formatting handlers. -/
structure Settings where
  xml : Option XmlSettings
deriving DecidableEq

/-- The empty object `{}` used by `settings.xml?.format || {}`. -/
def emptyXmlFormatSettings : XmlFormatSettings :=
  ⟨none, none, none, none, none, none, none, none⟩

/-- LSP `FormattingOptions` as consumed by `formatXml`
(`options.tabSize || 2` and `options.insertSpaces !== false`). -/
structure FormattingOptions where
  tabSize : Nat
  insertSpaces : Option Bool
deriving DecidableEq

/-- An LSP `TextEdit`, with the positions flattened to document offsets
(`positionAt 0` and `positionAt text.length` in the source). -/
structure TextEdit where
  rangeStart : Nat
  rangeEnd : Nat
  newText : String
deriving DecidableEq

/-- An LSP `Range`, flattened to a pair of document offsets. -/
structure TextRange where
  rangeStart : Nat
  rangeEnd : Nat
deriving DecidableEq

/-! ## The formatting engine (`formatXml` and its callers) -/

/-- One iteration of the `for` loop of `formatXml`: consumes one physical
line, carrying the state `(depth, preserveWhitespace)`, and returns the
new state together with the text appended to `formatted`.  The branch
structure mirrors the source line by line. -/
def formatStep (indentChar : String) (preserveNewLines : Bool)
    (st : Int × Bool) (rawLine : String) : (Int × Bool) × String :=
  let line := trimStr rawLine
  let depth := st.1
  let preserveWhitespace := st.2
  if line = "" then
    ((depth, preserveWhitespace), if preserveNewLines then "\n" else "")
  else if startsWithStr line "<?" || startsWithStr line "<!--" then
    -- XML declarations and comments
    ((depth, preserveWhitespace), line ++ "\n")
  else if strContains line "<![CDATA[" then
    -- CDATA sections
    ((depth, if strContains line "]]>" then false else true),
      strRepeat indentChar depth.toNat ++ line ++ "\n")
  else if preserveWhitespace then
    ((depth, if strContains line "]]>" then false else preserveWhitespace),
      line ++ "\n")
  else if strContains line "/>" then
    -- self-closing tags
    ((depth, preserveWhitespace), strRepeat indentChar depth.toNat ++ line ++ "\n")
  else if startsWithStr line "</" then
    -- closing tags: depth = Math.max(0, depth - 1)
    ((max 0 (depth - 1), preserveWhitespace),
      strRepeat indentChar (max 0 (depth - 1)).toNat ++ line ++ "\n")
  else if startsWithStr line "<" && !startsWithStr line "<!" then
    -- opening tags
    ((if endsWithStr line "/>" then depth else depth + 1, preserveWhitespace),
      strRepeat indentChar depth.toNat ++ line ++ "\n")
  else if decide (line ≠ "") && !startsWithStr line "<" then
    -- text content
    ((depth, preserveWhitespace), strRepeat indentChar depth.toNat ++ line ++ "\n")
  else
    -- default case
    ((depth, preserveWhitespace), strRepeat indentChar depth.toNat ++ line ++ "\n")

/-- The whole `for` loop of `formatXml`: the accumulated `formatted`
string, by structural recursion over the line list. -/
def formatLoop (indentChar : String) (preserveNewLines : Bool) :
    Int × Bool → List String → String
  | _, [] => ""
  | st, rawLine :: rest =>
    (formatStep indentChar preserveNewLines st rawLine).2 ++
      formatLoop indentChar preserveNewLines
        (formatStep indentChar preserveNewLines st rawLine).1 rest

/-- Embedding of `formatXml(content, options, settings)`. -/
def formatXml (content : String) (options : FormattingOptions)
    (settings : Settings) : String :=
  let xmlSettings := (Option.bind settings.xml (fun x => x.format)).getD emptyXmlFormatSettings
  let indentSize := if options.tabSize = 0 then 2 else options.tabSize
  let useSpaces := options.insertSpaces ≠ some false
  let indentChar := if useSpaces then strRepeat " " indentSize else "\t"
  let preserveNewLines := xmlSettings.preserveNewLines ≠ some false
  trimEndStr (formatLoop indentChar preserveNewLines (0, false) (splitLines content))

/-- Embedding of `formatXmlDocument(document, options, settings)`.  The
document is its text; the edit positions are the document offsets the
source computes with `positionAt`. -/
def formatXmlDocument (text : String) (options : FormattingOptions)
    (settings : Settings) : List TextEdit :=
  let formatted := formatXml text options settings
  if formatted = text then []
  else [⟨0, text.length, formatted⟩]

/-- Embedding of `document.getText(range)`: the substring covered by the
range offsets. -/
def getTextOfRange (text : String) (range : TextRange) : String :=
  String.mk ((text.data.take range.rangeEnd).drop range.rangeStart)

/-- Embedding of `formatXmlDocumentRange(document, range, options, settings)`. -/
def formatXmlDocumentRange (text : String) (range : TextRange)
    (options : FormattingOptions) (settings : Settings) : List TextEdit :=
  let rangeText := getTextOfRange text range
  let formatted := formatXml rangeText options settings
  if formatted = rangeText then []
  else [⟨range.rangeStart, range.rangeEnd, formatted⟩]

/-- Embedding of the `connection.onDocumentFormatting` handler: a missing
document yields no edits, `xml.format.enable === false` short-circuits,
otherwise `formatXmlDocument` runs. -/
def onDocumentFormatting (document : Option String)
    (options : FormattingOptions) (settings : Settings) : List TextEdit :=
  match document with
  | none => []
  | some doc =>
    if (Option.bind (Option.bind settings.xml (fun x => x.format)) (fun f => f.enable)) = some false then []
    else formatXmlDocument doc options settings

/-- Embedding of the `connection.onDocumentRangeFormatting` handler. -/
def onDocumentRangeFormatting (document : Option String) (range : TextRange)
    (options : FormattingOptions) (settings : Settings) : List TextEdit :=
  match document with
  | none => []
  | some doc =>
    if (Option.bind (Option.bind settings.xml (fun x => x.format)) (fun f => f.enable)) = some false then []
    else formatXmlDocumentRange doc range options settings

/-- Settings with every field absent (the `{}` default). -/
def defaultSettings : Settings := ⟨none⟩

/-! ## Proof-support definitions -/

/-- The output line emitted by one loop iteration, without its trailing
newline: `none` when the iteration appends nothing (a blank line dropped
because `preserveNewLines` is off).  The branch conditions are those of
`formatStep`; branches whose appended text coincides are merged. -/
def stepRend (indentChar : String) (preserveNewLines : Bool)
    (st : Int × Bool) (rawLine : String) : Option String :=
  let line := trimStr rawLine
  let depth := st.1
  if line = "" then (if preserveNewLines then some "" else none)
  else if startsWithStr line "<?" || startsWithStr line "<!--" then some line
  else if strContains line "<![CDATA[" then
    some (strRepeat indentChar depth.toNat ++ line)
  else if st.2 then some line
  else if strContains line "/>" then some (strRepeat indentChar depth.toNat ++ line)
  else if startsWithStr line "</" then
    some (strRepeat indentChar (max 0 (depth - 1)).toNat ++ line)
  else some (strRepeat indentChar depth.toNat ++ line)

/-- The sequence of output lines produced by the loop. -/
def rendLines (indentChar : String) (preserveNewLines : Bool) :
    Int × Bool → List String → List String
  | _, [] => []
  | st, rawLine :: rest =>
    match stepRend indentChar preserveNewLines st rawLine with
    | none => rendLines indentChar preserveNewLines
        (formatStep indentChar preserveNewLines st rawLine).1 rest
    | some l => l :: rendLines indentChar preserveNewLines
        (formatStep indentChar preserveNewLines st rawLine).1 rest

/-- Join output lines, appending a newline after each one, exactly as the
loop builds `formatted`. -/
def joinNl : List String → String
  | [] => ""
  | l :: ls => l ++ "\n" ++ joinNl ls

/-- The loop state left after consuming a list of lines. -/
def loopState (indentChar : String) (preserveNewLines : Bool) :
    Int × Bool → List String → Int × Bool
  | st, [] => st
  | st, rawLine :: rest =>
    loopState indentChar preserveNewLines
      (formatStep indentChar preserveNewLines st rawLine).1 rest

/-- Every state the formatting walk passes through, the initial and the
final one included. -/
def loopTrace (indentChar : String) (preserveNewLines : Bool) :
    Int × Bool → List String → List (Int × Bool)
  | st, [] => [st]
  | st, rawLine :: rest =>
    st :: loopTrace indentChar preserveNewLines
      (formatStep indentChar preserveNewLines st rawLine).1 rest

/-- Drop trailing empty strings from a list of output lines. -/
def dropTrailBlanks (xs : List String) : List String :=
  (xs.reverse.dropWhile (fun l => l = "")).reverse

/-- A string containing no newline character. -/
def noNlStr (s : String) : Bool := s.data.all (fun c => c ≠ '\n')

/-- Indent units that `formatXml` can build: spaces and tabs only. -/
def icOk (s : String) : Bool := s.data.all (fun c => c = ' ' || c = '\t')

/-- The indent unit `formatXml` derives from its options. -/
def indentCharOf (options : FormattingOptions) : String :=
  if options.insertSpaces ≠ some false then
    strRepeat " " (if options.tabSize = 0 then 2 else options.tabSize)
  else "\t"

/-- The blank-line policy `formatXml` derives from its settings. -/
def preserveNLOf (settings : Settings) : Bool :=
  ((Option.bind settings.xml (fun x => x.format)).getD
    emptyXmlFormatSettings).preserveNewLines ≠ some false

/-! ## Basic whitespace and `dropWhile` lemmas -/

theorem dropWhile_all_nil {α : Type} {p : α → Bool} {w : List α}
    (hw : ∀ c ∈ w, p c = true) : w.dropWhile p = [] :=
  List.dropWhile_eq_nil_iff.mpr fun c hc => hw c hc

theorem dropWhile_append_all {α : Type} {p : α → Bool} {w : List α} (l : List α)
    (hw : ∀ c ∈ w, p c = true) : (w ++ l).dropWhile p = l.dropWhile p := by
  rw [List.dropWhile_append, dropWhile_all_nil hw]
  rfl

theorem dropWhile_append_of_ne_nil {α : Type} {p : α → Bool} {w : List α} (l : List α)
    (hw : w.dropWhile p ≠ []) : (w ++ l).dropWhile p = w.dropWhile p ++ l := by
  rw [List.dropWhile_append]
  simp [List.isEmpty_iff, hw]

theorem dropWhile_head_not {α : Type} (p : α → Bool) (l : List α) :
    l.dropWhile p = [] ∨ ∃ c cs, l.dropWhile p = c :: cs ∧ p c = false := by
  induction l with
  | nil => exact Or.inl rfl
  | cons c cs ih =>
    by_cases h : p c
    · simpa [List.dropWhile_cons, h] using ih
    · exact Or.inr ⟨c, cs, by simp [List.dropWhile_cons, h], by simp [h]⟩

theorem dropWhile_of_head_false {α : Type} {p : α → Bool} {c : α} {cs : List α}
    (h : p c = false) : (c :: cs).dropWhile p = c :: cs := by
  simp [List.dropWhile_cons, h]

theorem dropWhile_idem {α : Type} (p : α → Bool) (l : List α) :
    (l.dropWhile p).dropWhile p = l.dropWhile p := by
  rcases dropWhile_head_not p l with h | ⟨c, cs, h, hc⟩
  · simp [h]
  · rw [h, dropWhile_of_head_false hc]

/-- The whitespace suffix split off by `trimEndList`. -/
theorem trimEndList_append_suffix (l : List Char) :
    trimEndList l ++ (l.reverse.takeWhile isWsChar).reverse = l := by
  have h : l.reverse.takeWhile isWsChar ++ l.reverse.dropWhile isWsChar = l.reverse :=
    List.takeWhile_append_dropWhile ..
  have h2 := congrArg List.reverse h
  rw [List.reverse_append, List.reverse_reverse] at h2
  exact h2

theorem trimEndList_suffix_ws (l : List Char) :
    ∀ c ∈ (l.reverse.takeWhile isWsChar).reverse, isWsChar c = true := by
  intro c hc
  exact List.mem_takeWhile_imp (List.mem_reverse.mp hc)

theorem trimEndList_append_allWs {w : List Char} (l : List Char)
    (hw : ∀ c ∈ w, isWsChar c = true) : trimEndList (l ++ w) = trimEndList l := by
  unfold trimEndList
  rw [List.reverse_append, dropWhile_append_all _ (fun c hc => hw c (List.mem_reverse.mp hc))]

theorem trimEndList_allWs {w : List Char} (hw : ∀ c ∈ w, isWsChar c = true) :
    trimEndList w = [] := by
  unfold trimEndList
  rw [dropWhile_all_nil (fun c hc => hw c (List.mem_reverse.mp hc))]
  rfl

theorem trimEndList_append_of_ne_nil (m : List Char) {k : List Char}
    (h : trimEndList k ≠ []) : trimEndList (m ++ k) = m ++ trimEndList k := by
  unfold trimEndList at h ⊢
  have hk : k.reverse.dropWhile isWsChar ≠ [] := by
    intro hnil
    rw [hnil] at h
    exact h rfl
  rw [List.reverse_append, dropWhile_append_of_ne_nil _ hk, List.reverse_append,
    List.reverse_reverse]

theorem trimEndList_idem (l : List Char) :
    trimEndList (trimEndList l) = trimEndList l := by
  unfold trimEndList
  rw [List.reverse_reverse, dropWhile_idem]

/-- A right-trim-fixed nonempty list ends in a non-whitespace character. -/
theorem trimEndList_fix_last {l : List Char} (h : trimEndList l = l) :
    l = [] ∨ ∃ c cs, l.reverse = c :: cs ∧ isWsChar c = false := by
  rcases dropWhile_head_not isWsChar l.reverse with h1 | ⟨c, cs, h1, hc⟩
  · left
    have : trimEndList l = [] := by unfold trimEndList; rw [h1]; rfl
    rw [h] at this
    exact this
  · right
    refine ⟨c, cs, ?_, hc⟩
    have h2 : (trimEndList l).reverse = l.reverse.dropWhile isWsChar := by
      unfold trimEndList; rw [List.reverse_reverse]
    rw [h] at h2
    rw [h2, h1]

theorem trimList_eq_trimEnd_drop (l : List Char) :
    trimList l = trimEndList (l.dropWhile isWsChar) := rfl

theorem dropWhile_trimList (l : List Char) :
    (trimList l).dropWhile isWsChar = trimList l := by
  rw [trimList_eq_trimEnd_drop]
  rcases dropWhile_head_not isWsChar l with h1 | ⟨c, cs, h1, hc⟩
  · rw [h1]
    rfl
  · rw [h1]
    rcases htr : trimEndList (c :: cs) with _ | ⟨d, ds⟩
    · rfl
    · have hsplit := trimEndList_append_suffix (c :: cs)
      rw [htr] at hsplit
      have hd : d = c := by
        have h2 := congrArg List.head? hsplit
        simpa using h2
      rw [hd]
      exact dropWhile_of_head_false hc

theorem trimList_idem (l : List Char) : trimList (trimList l) = trimList l := by
  have h1 : trimList (trimList l) = trimEndList ((trimList l).dropWhile isWsChar) := rfl
  rw [h1, dropWhile_trimList, trimList_eq_trimEnd_drop, trimEndList_idem]

theorem trimStr_idem (s : String) : trimStr (trimStr s) = trimStr s := by
  unfold trimStr
  rw [String.ext_iff]
  simpa using trimList_idem s.data

theorem trimList_append_allWs_left {w : List Char} (l : List Char)
    (hw : ∀ c ∈ w, isWsChar c = true) : trimList (w ++ l) = trimList l := by
  unfold trimList
  rw [dropWhile_append_all _ hw]

theorem trimEndList_trimList (l : List Char) :
    trimEndList (trimList l) = trimList l := by
  rw [trimList_eq_trimEnd_drop, trimEndList_idem]

/-! ## Lemmas about line splitting and joining -/

theorem consHead_cons (c : Char) (l : List Char) (ls : List (List Char)) :
    consHead c (l :: ls) = (c :: l) :: ls := rfl

theorem splitNlChar_cons (c : Char) (cs : List Char) :
    splitNlChar (c :: cs) =
      if c = '\n' then [] :: splitNlChar cs else consHead c (splitNlChar cs) := rfl

theorem splitNlChar_ne_nil (cs : List Char) : splitNlChar cs ≠ [] := by
  induction cs with
  | nil => simp [splitNlChar]
  | cons c cl ih =>
    rw [splitNlChar_cons]
    by_cases h : c = '\n'
    · simp [h]
    · rw [if_neg h]
      rcases hs : splitNlChar cl with _ | ⟨l, ls⟩
      · simp [consHead]
      · simp [consHead]

theorem splitNlChar_append_nl (l xs : List Char) (hl : ∀ c ∈ l, c ≠ '\n') :
    splitNlChar (l ++ '\n' :: xs) = l :: splitNlChar xs := by
  induction l with
  | nil =>
    show splitNlChar ('\n' :: xs) = [] :: splitNlChar xs
    rw [splitNlChar_cons, if_pos rfl]
  | cons c cl ih =>
    have hc : c ≠ '\n' := hl c (by simp)
    have ih2 := ih fun d hd => hl d (by simp [hd])
    show splitNlChar (c :: (cl ++ '\n' :: xs)) = (c :: cl) :: splitNlChar xs
    rw [splitNlChar_cons, if_neg hc, ih2, consHead_cons]

theorem splitNlChar_of_noNl (l : List Char) (hl : ∀ c ∈ l, c ≠ '\n') :
    splitNlChar l = [l] := by
  induction l with
  | nil => rfl
  | cons c cl ih =>
    have hc : c ≠ '\n' := hl c (by simp)
    rw [splitNlChar_cons, if_neg hc, ih fun d hd => hl d (by simp [hd]), consHead_cons]

theorem dropTrailCr_nil : dropTrailCr [] = [] := by
  simp [dropTrailCr]

theorem dropTrailCr_of_trimEnd_fix {p : List Char} (h : trimEndList p = p) :
    dropTrailCr p = p := by
  rcases trimEndList_fix_last h with h1 | ⟨c, cs, h1, hc⟩
  · rw [h1]
    exact dropTrailCr_nil
  · unfold dropTrailCr
    have hlast : p.getLast? = some c := by
      rw [← List.head?_reverse, h1]
      rfl
    rw [hlast]
    have : c ≠ '\r' := by
      intro hcr
      rw [hcr] at hc
      simp [isWsChar] at hc
    simp [this]

theorem stripCrPieces_cons_of_ne_nil (p : List Char) {ps : List (List Char)}
    (h : ps ≠ []) : stripCrPieces (p :: ps) = dropTrailCr p :: stripCrPieces ps := by
  cases ps with
  | nil => exact absurd rfl h
  | cons q qs => rfl

theorem splitLines_mk_cons (l xs : List Char) (h1 : ∀ c ∈ l, c ≠ '\n')
    (h2 : dropTrailCr l = l) :
    splitLines (String.mk (l ++ '\n' :: xs)) = String.mk l :: splitLines (String.mk xs) := by
  unfold splitLines
  show (stripCrPieces (splitNlChar (l ++ '\n' :: xs))).map String.mk = _
  rw [splitNlChar_append_nl l xs h1,
    stripCrPieces_cons_of_ne_nil l (splitNlChar_ne_nil xs), h2]
  rfl

theorem splitLines_mk_noNl (l : List Char) (h1 : ∀ c ∈ l, c ≠ '\n') :
    splitLines (String.mk l) = [String.mk l] := by
  unfold splitLines
  show (stripCrPieces (splitNlChar l)).map String.mk = _
  rw [splitNlChar_of_noNl l h1]
  rfl

theorem splitLines_empty : splitLines "" = [""] := rfl

/-! ## String-level bridging lemmas -/

theorem data_mk (l : List Char) : (String.mk l).data = l := rfl

theorem mk_data (s : String) : String.mk s.data = s := rfl

theorem str_eq_iff_data (s t : String) : s = t ↔ s.data = t.data := String.ext_iff

theorem trimEndStr_data (s : String) : (trimEndStr s).data = trimEndList s.data := rfl

theorem trimStr_data (s : String) : (trimStr s).data = trimList s.data := rfl

theorem trimEndStr_empty_iff (s : String) : trimEndStr s = "" ↔ trimEndList s.data = [] := by
  rw [str_eq_iff_data]
  rfl

theorem noNlStr_iff (s : String) : noNlStr s = true ↔ ∀ c ∈ s.data, c ≠ '\n' := by
  simp [noNlStr]

theorem trimEndStr_fix_iff (s : String) : trimEndStr s = s ↔ trimEndList s.data = s.data := by
  rw [str_eq_iff_data]
  rfl

/-! ## Lemmas about trailing blank output lines -/

theorem dropTrailBlanks_decomp (xs : List String) :
    ∃ k, xs = dropTrailBlanks xs ++ List.replicate k "" := by
  have h : xs.reverse.takeWhile (fun l => l = "") ++ xs.reverse.dropWhile (fun l => l = "")
      = xs.reverse := List.takeWhile_append_dropWhile ..
  have h2 := congrArg List.reverse h
  rw [List.reverse_append, List.reverse_reverse] at h2
  refine ⟨(xs.reverse.takeWhile (fun l => l = "")).reverse.length, ?_⟩
  have hall : ∀ x ∈ (xs.reverse.takeWhile (fun l => l = "")).reverse, x = "" := by
    intro x hx
    have hp := List.mem_takeWhile_imp (List.mem_reverse.mp hx)
    simpa using hp
  rw [← List.eq_replicate_of_mem hall]
  exact h2.symm

theorem dropTrailBlanks_eq_nil_iff (xs : List String) :
    dropTrailBlanks xs = [] ↔ ∀ x ∈ xs, x = "" := by
  unfold dropTrailBlanks
  rw [List.reverse_eq_nil_iff, List.dropWhile_eq_nil_iff]
  constructor
  · intro h x hx
    have := h x (List.mem_reverse.mpr hx)
    simpa using this
  · intro h x hx
    simpa using h x (List.mem_reverse.mp hx)

theorem dropTrailBlanks_cons_of_ne (x : String) {xs : List String}
    (h : dropTrailBlanks xs ≠ []) :
    dropTrailBlanks (x :: xs) = x :: dropTrailBlanks xs := by
  unfold dropTrailBlanks at h ⊢
  have hne : xs.reverse.dropWhile (fun l => l = "") ≠ [] := by
    intro hn
    rw [hn] at h
    exact h rfl
  rw [List.reverse_cons, dropWhile_append_of_ne_nil _ hne, List.reverse_append]
  rfl

theorem dropTrailBlanks_cons_blank_tail (x : String) {xs : List String}
    (hxs : ∀ y ∈ xs, y = "") (hx : x ≠ "") : dropTrailBlanks (x :: xs) = [x] := by
  unfold dropTrailBlanks
  rw [List.reverse_cons,
    dropWhile_append_all _ (fun y hy => by simpa using hxs y (List.mem_reverse.mp hy)),
    dropWhile_of_head_false (by simpa using hx)]
  rfl

theorem dropTrailBlanks_sublist_mem {xs : List String} {x : String}
    (hx : x ∈ dropTrailBlanks xs) : x ∈ xs := by
  unfold dropTrailBlanks at hx
  have h := (List.dropWhile_sublist _).mem (List.mem_reverse.mp hx)
  exact List.mem_reverse.mp h

/-! ## Lemmas about `joinNl` -/

theorem joinNl_cons (x : String) (ls : List String) :
    joinNl (x :: ls) = (x ++ "\n") ++ joinNl ls := rfl

theorem joinNl_data_cons (x : String) (ls : List String) :
    (joinNl (x :: ls)).data = x.data ++ '\n' :: (joinNl ls).data := by
  rw [joinNl_cons, String.data_append, String.data_append]
  have h : ("\n" : String).data = ['\n'] := rfl
  rw [h, List.append_assoc]
  rfl

theorem joinNl_append (a b : List String) :
    joinNl (a ++ b) = joinNl a ++ joinNl b := by
  induction a with
  | nil =>
    show joinNl b = "" ++ joinNl b
    rw [str_eq_iff_data, String.data_append]
    rfl
  | cons x a ih =>
    show joinNl (x :: (a ++ b)) = joinNl (x :: a) ++ joinNl b
    rw [joinNl_cons, joinNl_cons, ih, String.append_assoc]
    rw [String.append_assoc, String.append_assoc]

theorem joinNl_all_blank_ws {ls : List String} (h : ∀ x ∈ ls, x = "") :
    ∀ c ∈ (joinNl ls).data, isWsChar c = true := by
  induction ls with
  | nil => intro c hc; simp [joinNl] at hc
  | cons x ls ih =>
    intro c hc
    rw [joinNl_data_cons] at hc
    have hx : x = "" := h x (by simp)
    rw [hx] at hc
    rcases List.mem_cons.mp hc with h1 | h1
    · rw [h1]; rfl
    · exact ih (fun y hy => h y (by simp [hy])) c h1

theorem mem_joinNl_data {ls : List String} {y : String} (hy : y ∈ ls) :
    ∀ c ∈ y.data, c ∈ (joinNl ls).data := by
  induction ls with
  | nil => simp at hy
  | cons x ls ih =>
    intro c hc
    rw [joinNl_data_cons]
    rcases List.mem_cons.mp hy with h1 | h1
    · subst h1
      exact List.mem_append_left _ hc
    · exact List.mem_append_right _ (List.mem_cons_of_mem _ (ih h1 c hc))

/-! ## `trimEnd` on strings -/

theorem trimEndStr_append_allWs (a b : String) (hb : ∀ c ∈ b.data, isWsChar c = true) :
    trimEndStr (a ++ b) = trimEndStr a := by
  unfold trimEndStr
  rw [String.data_append, trimEndList_append_allWs _ hb]

theorem trimEndStr_ne_empty_of_mem {b : String} {c : Char} (hc : c ∈ b.data)
    (hw : isWsChar c = false) : trimEndStr b ≠ "" := by
  rw [Ne, trimEndStr_empty_iff]
  intro hnil
  have hsplit := trimEndList_append_suffix b.data
  rw [hnil, List.nil_append] at hsplit
  have hws := trimEndList_suffix_ws b.data c (by rw [hsplit]; exact hc)
  rw [hws] at hw
  simp at hw

theorem trimEndStr_append_of_ne (a : String) {b : String} (h : trimEndStr b ≠ "") :
    trimEndStr (a ++ b) = a ++ trimEndStr b := by
  rw [str_eq_iff_data, trimEndStr_data, String.data_append, String.data_append,
    trimEndStr_data]
  exact trimEndList_append_of_ne_nil a.data fun hn => h ((trimEndStr_empty_iff b).mpr hn)

theorem splitLines_of_noNl (x : String) (h : noNlStr x = true) :
    splitLines x = [x] := by
  have h2 := splitLines_mk_noNl x.data ((noNlStr_iff x).mp h)
  rwa [mk_data] at h2

theorem append_nl_eq_mk (x S : String) :
    (x ++ "\n") ++ S = String.mk (x.data ++ '\n' :: S.data) := by
  rw [str_eq_iff_data, String.data_append, String.data_append]
  have h : ("\n" : String).data = ['\n'] := rfl
  rw [h, List.append_assoc]
  rfl

theorem splitLines_append_nl (x S : String) (h1 : noNlStr x = true)
    (h2 : trimEndStr x = x) :
    splitLines ((x ++ "\n") ++ S) = x :: splitLines S := by
  rw [append_nl_eq_mk]
  have h3 := splitLines_mk_cons x.data S.data ((noNlStr_iff x).mp h1)
    (dropTrailCr_of_trimEnd_fix ((trimEndStr_fix_iff x).mp h2))
  rwa [mk_data, mk_data] at h3

/-- Re-splitting the right-trimmed join of well-formed output lines gives
back those lines, less any trailing blanks (with `[""]` for the all-blank
border case, as splitting the empty string yields one empty line). -/
theorem splitLines_trimEnd_joinNl (R : List String)
    (hP : ∀ x ∈ R, noNlStr x = true ∧ trimEndStr x = x) :
    splitLines (trimEndStr (joinNl R)) =
      if dropTrailBlanks R = [] then [""] else dropTrailBlanks R := by
  induction R with
  | nil => rfl
  | cons x R ih =>
    by_cases hR : dropTrailBlanks R = []
    · have hRb : ∀ y ∈ R, y = "" := (dropTrailBlanks_eq_nil_iff R).mp hR
      by_cases hx : x = ""
      · have hall : ∀ y ∈ x :: R, y = "" := by
          intro y hy
          rcases List.mem_cons.mp hy with h1 | h1
          · rw [h1]
            exact hx
          · exact hRb y h1
        rw [if_pos ((dropTrailBlanks_eq_nil_iff _).mpr hall)]
        have hempty : trimEndStr (joinNl (x :: R)) = "" := by
          rw [trimEndStr_empty_iff]
          exact trimEndList_allWs (joinNl_all_blank_ws hall)
        rw [hempty]
        rfl
      · rw [dropTrailBlanks_cons_blank_tail x hRb hx, if_neg (by simp)]
        have hPx := hP x (by simp)
        have hws : ∀ c ∈ ("\n" ++ joinNl R).data, isWsChar c = true := by
          intro c hc
          rw [String.data_append] at hc
          rcases List.mem_append.mp hc with h1 | h1
          · have hcn : c = '\n' := by simpa using h1
            rw [hcn]
            rfl
          · exact joinNl_all_blank_ws hRb c h1
        have h5 : trimEndStr (joinNl (x :: R)) = x := by
          rw [joinNl_cons, String.append_assoc, trimEndStr_append_allWs x _ hws, hPx.2]
        rw [h5]
        exact splitLines_of_noNl x hPx.1
    · rw [dropTrailBlanks_cons_of_ne x hR, if_neg (by simp)]
      have hPx := hP x (by simp)
      have hne : trimEndStr (joinNl R) ≠ "" := by
        have hex : ∃ y ∈ R, y ≠ "" := by
          by_contra hcon
          push_neg at hcon
          exact hR ((dropTrailBlanks_eq_nil_iff R).mpr hcon)
        obtain ⟨y, hyR, hy⟩ := hex
        have hPy := hP y (by simp [hyR])
        rcases trimEndList_fix_last ((trimEndStr_fix_iff y).mp hPy.2) with h1 | ⟨c, cs, h1, hc⟩
        · exact absurd (String.ext (by rw [h1])) hy
        · have hcin : c ∈ y.data := by
            have hcr : c ∈ y.data.reverse := by rw [h1]; simp
            exact List.mem_reverse.mp hcr
          exact trimEndStr_ne_empty_of_mem (mem_joinNl_data hyR c hcin) hc
      have h6 : trimEndStr (joinNl (x :: R)) = (x ++ "\n") ++ trimEndStr (joinNl R) := by
        rw [joinNl_cons]
        exact trimEndStr_append_of_ne (x ++ "\n") hne
      rw [h6, splitLines_append_nl x _ hPx.1 hPx.2,
        ih fun y hy => hP y (by simp [hy]), if_neg hR]

/-! ## Structure of the loop: equations and chunk shapes -/

theorem str_empty_append (s : String) : ("" ++ s : String) = s := by
  rw [String.ext_iff, String.data_append]
  rfl

theorem formatLoop_nil (ic : String) (pnl : Bool) (st : Int × Bool) :
    formatLoop ic pnl st [] = "" := rfl

theorem formatLoop_cons (ic : String) (pnl : Bool) (st : Int × Bool)
    (raw : String) (rest : List String) :
    formatLoop ic pnl st (raw :: rest) =
      (formatStep ic pnl st raw).2 ++
        formatLoop ic pnl (formatStep ic pnl st raw).1 rest := rfl

theorem rendLines_cons (ic : String) (pnl : Bool) (st : Int × Bool)
    (raw : String) (rest : List String) :
    rendLines ic pnl st (raw :: rest) =
      match stepRend ic pnl st raw with
      | none => rendLines ic pnl (formatStep ic pnl st raw).1 rest
      | some l => l :: rendLines ic pnl (formatStep ic pnl st raw).1 rest := rfl

theorem loopState_cons (ic : String) (pnl : Bool) (st : Int × Bool)
    (raw : String) (rest : List String) :
    loopState ic pnl st (raw :: rest) =
      loopState ic pnl (formatStep ic pnl st raw).1 rest := rfl

theorem formatStep_chunk (ic : String) (pnl : Bool) (st : Int × Bool) (raw : String) :
    (formatStep ic pnl st raw).2 =
      match stepRend ic pnl st raw with
      | none => ""
      | some x => x ++ "\n" := by
  simp only [formatStep, stepRend]
  split_ifs <;> simp [str_empty_append]

theorem formatStep_congr_trim {x raw : String} (ic : String) (pnl : Bool)
    (st : Int × Bool) (h : trimStr x = trimStr raw) :
    formatStep ic pnl st x = formatStep ic pnl st raw := by
  simp only [formatStep, h]

theorem stepRend_congr_trim {x raw : String} (ic : String) (pnl : Bool)
    (st : Int × Bool) (h : trimStr x = trimStr raw) :
    stepRend ic pnl st x = stepRend ic pnl st raw := by
  simp only [stepRend, h]

theorem formatStep_state_blank {raw : String} (ic : String) (pnl : Bool)
    (st : Int × Bool) (h : trimStr raw = "") :
    (formatStep ic pnl st raw).1 = st := by
  simp [formatStep, h]

theorem stepRend_none_blank {ic : String} {pnl : Bool} {st : Int × Bool} {raw : String}
    (h : stepRend ic pnl st raw = none) : trimStr raw = "" := by
  by_contra hne
  simp only [stepRend] at h
  split_ifs at h with h1 <;> simp_all

/-! ## Properties of rendered lines -/

theorem trimList_sublist (l : List Char) : List.Sublist (trimList l) l := by
  have h1 : List.Sublist (l.dropWhile isWsChar) l := List.dropWhile_sublist _
  have h2 : List.Sublist ((l.dropWhile isWsChar).reverse.dropWhile isWsChar)
      (l.dropWhile isWsChar).reverse := List.dropWhile_sublist _
  have h3 := h2.reverse
  rw [List.reverse_reverse] at h3
  exact h3.trans h1

theorem noNl_trimStr {s : String} (h : noNlStr s = true) : noNlStr (trimStr s) = true := by
  rw [noNlStr_iff] at h ⊢
  intro c hc
  exact h c ((trimList_sublist s.data).mem hc)

theorem trimEndStr_trimStr (s : String) : trimEndStr (trimStr s) = trimStr s := by
  rw [trimEndStr_fix_iff]
  exact trimEndList_trimList s.data

theorem strRepeat_chars {ic : String} (hic : icOk ic = true) (n : Nat) :
    ∀ c ∈ (strRepeat ic n).data, isWsChar c = true ∧ c ≠ '\n' := by
  induction n with
  | zero => intro c hc; simp [strRepeat] at hc
  | succ n ih =>
    intro c hc
    have hstep : (strRepeat ic (n + 1)).data = ic.data ++ (strRepeat ic n).data := by
      show (ic ++ strRepeat ic n).data = _
      rw [String.data_append]
    rw [hstep] at hc
    rcases List.mem_append.mp hc with h1 | h1
    · have := (List.all_eq_true.mp hic) c h1
      rcases Bool.or_eq_true_iff.mp this with h2 | h2
      · have hc2 : c = ' ' := by simpa using h2
        rw [hc2]
        exact ⟨rfl, by decide⟩
      · have hc2 : c = '\t' := by simpa using h2
        rw [hc2]
        exact ⟨rfl, by decide⟩
    · exact ih c h1

theorem rend_props_line {raw : String} (hraw : noNlStr raw = true) :
    trimStr (trimStr raw) = trimStr raw ∧ noNlStr (trimStr raw) = true ∧
      trimEndStr (trimStr raw) = trimStr raw :=
  ⟨trimStr_idem raw, noNl_trimStr hraw, trimEndStr_trimStr raw⟩

theorem rend_props_indent {ic raw : String} (hic : icOk ic = true)
    (hraw : noNlStr raw = true) (hne : ¬trimStr raw = "") (k : Nat) :
    trimStr (strRepeat ic k ++ trimStr raw) = trimStr raw ∧
    noNlStr (strRepeat ic k ++ trimStr raw) = true ∧
    trimEndStr (strRepeat ic k ++ trimStr raw) = strRepeat ic k ++ trimStr raw := by
  refine ⟨?_, ?_, ?_⟩
  · rw [str_eq_iff_data, trimStr_data, String.data_append,
      trimList_append_allWs_left _ fun c hc => (strRepeat_chars hic k c hc).1]
    exact trimList_idem raw.data
  · rw [noNlStr_iff]
    intro c hc
    rw [String.data_append] at hc
    rcases List.mem_append.mp hc with h1 | h1
    · exact (strRepeat_chars hic k c h1).2
    · exact (noNlStr_iff _).mp (noNl_trimStr hraw) c h1
  · rw [trimEndStr_fix_iff, String.data_append]
    have ht : trimEndList (trimStr raw).data = (trimStr raw).data :=
      (trimEndStr_fix_iff _).mp (trimEndStr_trimStr raw)
    have htne : trimEndList (trimStr raw).data ≠ [] := by
      rw [ht]
      intro h0
      exact hne (String.ext (by rw [h0]))
    rw [trimEndList_append_of_ne_nil _ htne, ht]

theorem stepRend_some_props {ic : String} {pnl : Bool} {st : Int × Bool} {raw x : String}
    (hic : icOk ic = true) (hraw : noNlStr raw = true)
    (hx : stepRend ic pnl st raw = some x) :
    trimStr x = trimStr raw ∧ noNlStr x = true ∧ trimEndStr x = x := by
  simp only [stepRend] at hx
  split_ifs at hx
  · rw [← Option.some.inj hx]
    refine ⟨?_, rfl, rfl⟩
    rw [‹trimStr raw = ""›]
    decide
  · rw [← Option.some.inj hx]
    exact rend_props_line hraw
  · rw [← Option.some.inj hx]
    exact rend_props_indent hic hraw ‹¬trimStr raw = ""› _
  · rw [← Option.some.inj hx]
    exact rend_props_line hraw
  · rw [← Option.some.inj hx]
    exact rend_props_indent hic hraw ‹¬trimStr raw = ""› _
  · rw [← Option.some.inj hx]
    exact rend_props_indent hic hraw ‹¬trimStr raw = ""› _
  · rw [← Option.some.inj hx]
    exact rend_props_indent hic hraw ‹¬trimStr raw = ""› _

theorem rendLines_cons_none {ic : String} {pnl : Bool} {st : Int × Bool} {raw : String}
    (rest : List String) (h : stepRend ic pnl st raw = none) :
    rendLines ic pnl st (raw :: rest) =
      rendLines ic pnl (formatStep ic pnl st raw).1 rest := by
  rw [rendLines_cons, h]

theorem rendLines_cons_some {ic : String} {pnl : Bool} {st : Int × Bool} {raw y : String}
    (rest : List String) (h : stepRend ic pnl st raw = some y) :
    rendLines ic pnl st (raw :: rest) =
      y :: rendLines ic pnl (formatStep ic pnl st raw).1 rest := by
  rw [rendLines_cons, h]

theorem formatStep_chunk_none {ic : String} {pnl : Bool} {st : Int × Bool} {raw : String}
    (h : stepRend ic pnl st raw = none) : (formatStep ic pnl st raw).2 = "" := by
  rw [formatStep_chunk, h]

theorem formatStep_chunk_some {ic : String} {pnl : Bool} {st : Int × Bool} {raw y : String}
    (h : stepRend ic pnl st raw = some y) : (formatStep ic pnl st raw).2 = y ++ "\n" := by
  rw [formatStep_chunk, h]

theorem formatLoop_eq_joinNl (ic : String) (pnl : Bool) :
    ∀ (ls : List String) (st : Int × Bool),
      formatLoop ic pnl st ls = joinNl (rendLines ic pnl st ls) := by
  intro ls
  induction ls with
  | nil => intro st; rfl
  | cons raw rest ih =>
    intro st
    rcases h : stepRend ic pnl st raw with _ | y
    · rw [formatLoop_cons, formatStep_chunk_none h, rendLines_cons_none rest h,
        str_empty_append, ih]
    · rw [formatLoop_cons, formatStep_chunk_some h, rendLines_cons_some rest h,
        joinNl_cons, ih]

theorem formatLoop_rendLines {ic : String} {pnl : Bool} (hic : icOk ic = true) :
    ∀ (ls : List String) (st : Int × Bool), (∀ raw ∈ ls, noNlStr raw = true) →
      formatLoop ic pnl st (rendLines ic pnl st ls) = formatLoop ic pnl st ls := by
  intro ls
  induction ls with
  | nil => intro st _; rfl
  | cons raw rest ih =>
    intro st hls
    have hraw : noNlStr raw = true := hls raw (by simp)
    have hrest : ∀ r ∈ rest, noNlStr r = true := fun r hr => hls r (by simp [hr])
    rcases h : stepRend ic pnl st raw with _ | y
    · have hb := stepRend_none_blank h
      have hst := formatStep_state_blank ic pnl st hb
      rw [rendLines_cons_none rest h, hst, ih st hrest,
        formatLoop_cons ic pnl st raw rest, formatStep_chunk_none h, str_empty_append, hst]
    · have hprops := stepRend_some_props hic hraw h
      have hcongr := formatStep_congr_trim ic pnl st hprops.1
      rw [rendLines_cons_some rest h,
        formatLoop_cons ic pnl st y (rendLines ic pnl (formatStep ic pnl st raw).1 rest),
        formatLoop_cons ic pnl st raw rest, hcongr,
        ih (formatStep ic pnl st raw).1 hrest, formatStep_chunk_some h]

theorem formatLoop_append (ic : String) (pnl : Bool) :
    ∀ (a b : List String) (st : Int × Bool),
      formatLoop ic pnl st (a ++ b) =
        formatLoop ic pnl st a ++ formatLoop ic pnl (loopState ic pnl st a) b := by
  intro a
  induction a with
  | nil =>
    intro b st
    show formatLoop ic pnl st b = "" ++ formatLoop ic pnl st b
    rw [str_empty_append]
  | cons raw a ih =>
    intro b st
    show formatLoop ic pnl st (raw :: (a ++ b)) = _
    rw [formatLoop_cons ic pnl st raw (a ++ b), ih,
      formatLoop_cons ic pnl st raw a, loopState_cons, String.append_assoc]

theorem formatStep_blank_chunk (ic : String) (pnl : Bool) (st : Int × Bool) :
    (formatStep ic pnl st "").2 = if pnl then "\n" else "" := by
  simp only [formatStep]
  rw [if_pos (show trimStr "" = "" from rfl)]

theorem formatLoop_blanks_ws (ic : String) (pnl : Bool) (k : Nat) :
    ∀ (st : Int × Bool), ∀ c ∈ (formatLoop ic pnl st (List.replicate k "")).data,
      isWsChar c = true := by
  induction k with
  | zero =>
    intro st c hc
    exact absurd hc (by simp [List.replicate, formatLoop])
  | succ k ih =>
    intro st c hc
    rw [List.replicate_succ, formatLoop_cons, String.data_append] at hc
    rcases List.mem_append.mp hc with h1 | h1
    · rw [formatStep_blank_chunk] at h1
      by_cases hp : pnl
      · rw [if_pos hp] at h1
        have hcn : c = '\n' := by simpa using h1
        rw [hcn]
        rfl
      · rw [if_neg hp] at h1
        exact absurd h1 (by simp)
    · rw [@formatStep_state_blank "" ic pnl st (by decide)] at h1
      exact ih st c h1

/-! ## Well-formedness of split lines and rendered lines -/

theorem splitNlChar_elem_noNl (cs : List Char) :
    ∀ p ∈ splitNlChar cs, ∀ c ∈ p, c ≠ '\n' := by
  induction cs with
  | nil =>
    intro p hp c hc
    have hpe : p = [] := by simpa [splitNlChar] using hp
    rw [hpe] at hc
    simp at hc
  | cons a cl ih =>
    intro p hp c hc
    rw [splitNlChar_cons] at hp
    by_cases ha : a = '\n'
    · rw [if_pos ha] at hp
      rcases List.mem_cons.mp hp with h1 | h1
      · rw [h1] at hc
        simp at hc
      · exact ih p h1 c hc
    · rw [if_neg ha] at hp
      rcases hs : splitNlChar cl with _ | ⟨l, ls⟩
      · exact absurd hs (splitNlChar_ne_nil cl)
      · rw [hs, consHead_cons] at hp
        rcases List.mem_cons.mp hp with h1 | h1
        · rw [h1] at hc
          rcases List.mem_cons.mp hc with h2 | h2
          · rw [h2]
            exact ha
          · exact ih l (by rw [hs]; simp) c h2
        · exact ih p (by rw [hs]; simp [h1]) c hc

theorem dropTrailCr_subset {p : List Char} {c : Char} (hc : c ∈ dropTrailCr p) : c ∈ p := by
  unfold dropTrailCr at hc
  split_ifs at hc
  · exact (List.dropLast_sublist p).mem hc
  · exact hc

theorem stripCrPieces_chars :
    ∀ (ps : List (List Char)) (q : List Char), q ∈ stripCrPieces ps →
      ∀ c ∈ q, ∃ p ∈ ps, c ∈ p := by
  intro ps
  induction ps with
  | nil => intro q hq; simp [stripCrPieces] at hq
  | cons p ps ih =>
    intro q hq c hc
    cases ps with
    | nil =>
      have hqp : q = p := by simpa [stripCrPieces] using hq
      exact ⟨p, by simp, by rw [← hqp]; exact hc⟩
    | cons r rs =>
      rw [stripCrPieces_cons_of_ne_nil p (by simp)] at hq
      rcases List.mem_cons.mp hq with h1 | h1
      · exact ⟨p, by simp, dropTrailCr_subset (h1 ▸ hc)⟩
      · obtain ⟨q1, hq1, hcq1⟩ := ih q h1 c hc
        exact ⟨q1, by simp [hq1], hcq1⟩

theorem splitLines_noNl (s : String) : ∀ x ∈ splitLines s, noNlStr x = true := by
  intro x hx
  unfold splitLines at hx
  obtain ⟨q, hq, hxq⟩ := List.mem_map.mp hx
  rw [noNlStr_iff, ← hxq]
  intro c hc
  obtain ⟨p, hp, hcp⟩ := stripCrPieces_chars _ q hq c hc
  exact splitNlChar_elem_noNl s.data p hp c hcp

theorem rendLines_props {ic : String} {pnl : Bool} (hic : icOk ic = true) :
    ∀ (ls : List String) (st : Int × Bool), (∀ raw ∈ ls, noNlStr raw = true) →
      ∀ x ∈ rendLines ic pnl st ls, noNlStr x = true ∧ trimEndStr x = x := by
  intro ls
  induction ls with
  | nil =>
    intro st _ x hx
    simp [rendLines] at hx
  | cons raw rest ih =>
    intro st hls x hx
    have hrest : ∀ r ∈ rest, noNlStr r = true := fun r hr => hls r (by simp [hr])
    rcases h : stepRend ic pnl st raw with _ | y
    · rw [rendLines_cons_none rest h] at hx
      exact ih _ hrest x hx
    · rw [rendLines_cons_some rest h] at hx
      rcases List.mem_cons.mp hx with h1 | h1
      · have hp := stepRend_some_props hic (hls raw (by simp)) h
        rw [h1]
        exact ⟨hp.2.1, hp.2.2⟩
      · exact ih _ hrest x h1

theorem icOk_strRepeat_space (n : Nat) : icOk (strRepeat " " n) = true := by
  induction n with
  | zero => rfl
  | succ n ih =>
    show icOk (" " ++ strRepeat " " n) = true
    unfold icOk at ih ⊢
    simp only [String.data_append, List.all_append, Bool.and_eq_true]
    exact ⟨by decide, ih⟩

theorem icOk_indentCharOf (o : FormattingOptions) : icOk (indentCharOf o) = true := by
  unfold indentCharOf
  split_ifs
  · exact icOk_strRepeat_space _
  · exact icOk_strRepeat_space _
  · decide

theorem formatXml_eq (content : String) (options : FormattingOptions)
    (settings : Settings) :
    formatXml content options settings =
      trimEndStr (formatLoop (indentCharOf options) (preserveNLOf settings) (0, false)
        (splitLines content)) := rfl

theorem formatLoop_single_blank (ic : String) (pnl : Bool) (st : Int × Bool) :
    trimEndStr (formatLoop ic pnl st [""]) = "" := by
  rw [formatLoop_cons, formatLoop_nil, formatStep_blank_chunk]
  by_cases hp : pnl
  · rw [if_pos hp]
    decide
  · rw [if_neg hp]
    decide

/-- Shared characterisation of the lines of a formatted output: they are
the rendered lines of the run, less trailing blanks. -/
theorem splitLines_formatXml (t : String) (o : FormattingOptions) (s : Settings) :
    splitLines (formatXml t o s) =
      if dropTrailBlanks
          (rendLines (indentCharOf o) (preserveNLOf s) (0, false) (splitLines t)) = []
      then [""]
      else dropTrailBlanks
        (rendLines (indentCharOf o) (preserveNLOf s) (0, false) (splitLines t)) := by
  have hout : formatXml t o s =
      trimEndStr (joinNl (rendLines (indentCharOf o) (preserveNLOf s) (0, false)
        (splitLines t))) := by
    rw [formatXml_eq, formatLoop_eq_joinNl]
  rw [hout]
  exact splitLines_trimEnd_joinNl _
    (rendLines_props (icOk_indentCharOf o) (splitLines t) (0, false) (splitLines_noNl t))

/-! ## Claim theorems -/

/-- C4.  Formatting is idempotent: for every text, options and settings,
`formatXml (formatXml t o s) o s = formatXml t o s`; re-formatting an
already-formatted document therefore yields an empty edit list. -/
theorem formatXml_idempotent (t : String) (o : FormattingOptions) (s : Settings) :
    formatXml (formatXml t o s) o s = formatXml t o s := by
  have hic : icOk (indentCharOf o) = true := icOk_indentCharOf o
  have hls := splitLines_noNl t
  have hout : formatXml t o s =
      trimEndStr (joinNl (rendLines (indentCharOf o) (preserveNLOf s) (0, false)
        (splitLines t))) := by
    rw [formatXml_eq, formatLoop_eq_joinNl]
  rw [formatXml_eq (formatXml t o s) o s, splitLines_formatXml]
  by_cases hz : dropTrailBlanks
      (rendLines (indentCharOf o) (preserveNLOf s) (0, false) (splitLines t)) = []
  · rw [if_pos hz, formatLoop_single_blank, hout]
    exact ((trimEndStr_empty_iff _).mpr (trimEndList_allWs
      (joinNl_all_blank_ws ((dropTrailBlanks_eq_nil_iff _).mp hz)))).symm
  · rw [if_neg hz]
    obtain ⟨k, hk⟩ := dropTrailBlanks_decomp
      (rendLines (indentCharOf o) (preserveNLOf s) (0, false) (splitLines t))
    have h2 : trimEndStr (formatLoop (indentCharOf o) (preserveNLOf s) (0, false)
        (dropTrailBlanks
          (rendLines (indentCharOf o) (preserveNLOf s) (0, false) (splitLines t)))) =
        trimEndStr (formatLoop (indentCharOf o) (preserveNLOf s) (0, false)
          (rendLines (indentCharOf o) (preserveNLOf s) (0, false) (splitLines t))) := by
      conv_rhs => rw [hk]
      rw [formatLoop_append]
      exact (trimEndStr_append_allWs _ _ (formatLoop_blanks_ws _ _ k _)).symm
    rw [h2, formatLoop_rendLines hic (splitLines t) (0, false) hls]
    exact (formatXml_eq t o s).symm

theorem rendLines_filter_trim {ic : String} {pnl : Bool} (hic : icOk ic = true) :
    ∀ (ls : List String) (st : Int × Bool), (∀ raw ∈ ls, noNlStr raw = true) →
      ((rendLines ic pnl st ls).map trimStr).filter (fun l => l ≠ "") =
        (ls.map trimStr).filter (fun l => l ≠ "") := by
  intro ls
  induction ls with
  | nil => intro st _; rfl
  | cons raw rest ih =>
    intro st hls
    have hraw := hls raw (by simp)
    have hrest : ∀ r ∈ rest, noNlStr r = true := fun r hr => hls r (by simp [hr])
    rcases h : stepRend ic pnl st raw with _ | y
    · have hb := stepRend_none_blank h
      rw [rendLines_cons_none rest h, @formatStep_state_blank raw ic pnl st hb,
        ih st hrest, List.map_cons, hb, List.filter_cons]
      simp
    · have hp := stepRend_some_props hic hraw h
      rw [rendLines_cons_some rest h, List.map_cons, List.map_cons, hp.1,
        List.filter_cons, List.filter_cons, ih (formatStep ic pnl st raw).1 hrest]

/-- C10.  The formatter never splits or joins physical lines: the trimmed
non-blank lines of the output are exactly the trimmed non-blank lines of
the input, in the same order; only indentation, blank-line handling and
the final right-trim differ. -/
theorem formatXml_preserves_lines (t : String) (o : FormattingOptions) (s : Settings) :
    ((splitLines (formatXml t o s)).map trimStr).filter (fun l => l ≠ "") =
      ((splitLines t).map trimStr).filter (fun l => l ≠ "") := by
  have h1 := @rendLines_filter_trim (indentCharOf o) (preserveNLOf s)
    (icOk_indentCharOf o) (splitLines t) (0, false) (splitLines_noNl t)
  rw [splitLines_formatXml, ← h1]
  by_cases hz : dropTrailBlanks
      (rendLines (indentCharOf o) (preserveNLOf s) (0, false) (splitLines t)) = []
  · rw [if_pos hz]
    have hall := (dropTrailBlanks_eq_nil_iff _).mp hz
    have hleft : (([""] : List String).map trimStr).filter (fun l => l ≠ "") = [] := by
      decide
    rw [hleft]
    symm
    rw [List.filter_eq_nil]
    intro a ha
    obtain ⟨x, hx, hxa⟩ := List.mem_map.mp ha
    rw [← hxa, hall x hx]
    decide
  · rw [if_neg hz]
    obtain ⟨k, hk⟩ := dropTrailBlanks_decomp
      (rendLines (indentCharOf o) (preserveNLOf s) (0, false) (splitLines t))
    conv_rhs => rw [hk]
    rw [List.map_append, List.filter_append, List.map_replicate]
    have ht0 : trimStr "" = "" := rfl
    rw [ht0]
    have hrep : (List.replicate k ("" : String)).filter (fun l => l ≠ "") = [] := by
      rw [List.filter_eq_nil]
      intro a ha
      rw [List.eq_of_mem_replicate ha]
      decide
    rw [hrep, List.append_nil]

/-! ## Depth invariant -/

theorem formatStep_depth_nonneg (ic : String) (pnl : Bool) (st : Int × Bool)
    (raw : String) (h : 0 ≤ st.1) : 0 ≤ (formatStep ic pnl st raw).1.1 := by
  simp only [formatStep]
  split_ifs <;> dsimp only <;> omega

theorem loopTrace_nonneg (ic : String) (pnl : Bool) :
    ∀ (ls : List String) (st : Int × Bool), 0 ≤ st.1 →
      (loopTrace ic pnl st ls).all (fun q => decide (0 ≤ q.1)) = true := by
  intro ls
  induction ls with
  | nil =>
    intro st h
    simp [loopTrace, h]
  | cons raw rest ih =>
    intro st h
    show ((st :: loopTrace ic pnl (formatStep ic pnl st raw).1 rest).all
      (fun q => decide (0 ≤ q.1))) = true
    rw [List.all_cons]
    simp only [Bool.and_eq_true]
    exact ⟨by simpa using h, ih _ (formatStep_depth_nonneg ic pnl st raw h)⟩

/-- C7.  The depth of the formatting walk is non-negative at every step,
for every input and every indent unit and blank-line policy: a closing tag
decrements with a floor at zero (`max 0 (depth - 1)` in `formatStep`)
instead of going negative. -/
theorem formatXml_depth_nonneg (ic : String) (pnl : Bool) (content : String) :
    (loopTrace ic pnl (0, false) (splitLines content)).all
      (fun q => decide (0 ≤ q.1)) = true :=
  loopTrace_nonneg ic pnl (splitLines content) (0, false) (by decide)

/-- C8.  A line whose trimmed content contains `/>` leaves the depth
unchanged for the following line, whatever state the walk is in. -/
theorem selfClosing_depth_frame (ic : String) (pnl : Bool) (st : Int × Bool)
    (raw : String) (h : strContains (trimStr raw) "/>" = true) :
    (formatStep ic pnl st raw).1.1 = st.1 := by
  simp only [formatStep]
  split_ifs <;> first
    | rfl
    | exact absurd h ‹¬strContains (trimStr raw) "/>" = true›

/-- Witness for C8 at a concrete self-closing line. -/
theorem selfClosing_depth_frame_witness :
    (formatStep "  " true (2, false) " <b/> ").1.1 = 2 :=
  selfClosing_depth_frame "  " true (2, false) " <b/> " (by decide)

/-- C5.  Whole-document formatting yields no edit exactly when the
rendered result equals the input text, and otherwise exactly one edit
spanning offsets `0 .. text.length` whose `newText` is the rendered
result. -/
theorem formatXmlDocument_edits (text : String) (o : FormattingOptions) (s : Settings) :
    (formatXmlDocument text o s =
      if formatXml text o s = text then []
      else [⟨0, text.length, formatXml text o s⟩]) ∧
    (formatXmlDocument text o s = [] ↔ formatXml text o s = text) := by
  constructor
  · rfl
  · unfold formatXmlDocument
    by_cases h : formatXml text o s = text
    · simp [h]
    · simp [h]

/-- C9.  Range formatting formats exactly the extracted substring in
isolation (fresh walk from depth 0); when the result differs it emits one
edit carrying the range given by the caller, and its replacement text is what
whole-document formatting would produce on that substring alone. -/
theorem formatXmlDocumentRange_edits (text : String) (range : TextRange)
    (o : FormattingOptions) (s : Settings) :
    (formatXmlDocumentRange text range o s =
      if formatXml (getTextOfRange text range) o s = getTextOfRange text range then []
      else [⟨range.rangeStart, range.rangeEnd, formatXml (getTextOfRange text range) o s⟩]) ∧
    ((formatXmlDocumentRange text range o s).map TextEdit.newText =
      (formatXmlDocument (getTextOfRange text range) o s).map TextEdit.newText) := by
  constructor
  · rfl
  · unfold formatXmlDocumentRange formatXmlDocument
    by_cases h : formatXml (getTextOfRange text range) o s = getTextOfRange text range
    · simp [h]
    · simp [h]

/-- C6.  With `xml.format.enable` resolved to `false`, both formatting
handlers short-circuit to an empty edit list for every document, range,
and option set. -/
theorem formatting_disabled_no_edits (document : Option String) (range : TextRange)
    (o : FormattingOptions) (s : Settings)
    (h : Option.bind (Option.bind s.xml (fun x => x.format)) (fun f => f.enable)
      = some false) :
    onDocumentFormatting document o s = [] ∧
      onDocumentRangeFormatting document range o s = [] := by
  cases document with
  | none => exact ⟨rfl, rfl⟩
  | some doc =>
    constructor
    · simp [onDocumentFormatting, h]
    · simp [onDocumentRangeFormatting, h]

/-- Witness for C6 at a concrete document with formatting disabled. -/
theorem formatting_disabled_no_edits_witness :
    onDocumentFormatting (some "<a>") ⟨2, some true⟩
        ⟨some ⟨some ⟨some false, none, none, none, none, none, none, none⟩,
          none, none, none, none⟩⟩ = [] ∧
      onDocumentRangeFormatting (some "<a>") ⟨0, 3⟩ ⟨2, some true⟩
        ⟨some ⟨some ⟨some false, none, none, none, none, none, none, none⟩,
          none, none, none, none⟩⟩ = [] :=
  formatting_disabled_no_edits (some "<a>") ⟨0, 3⟩ ⟨2, some true⟩
    ⟨some ⟨some ⟨some false, none, none, none, none, none, none, none⟩,
      none, none, none, none⟩⟩ (by decide)

/-- Counterexample to C1: the single-line input `<a><b/></a>` contains
`/>`, so the whole line is handled by the self-closing branch and emitted
unchanged at depth 0 — the formatter never breaks a physical line apart,
and the claimed three-line output is not produced. -/
theorem singleLine_selfClosing_counterexample :
    formatXml "<a><b/></a>" ⟨2, some true⟩ defaultSettings = "<a><b/></a>" ∧
      formatXml "<a><b/></a>" ⟨2, some true⟩ defaultSettings ≠ "<a>\n  <b/>\n</a>" :=
  ⟨by decide, by decide⟩

/-- C1 as amended: when the same tags arrive on separate physical lines
(`<a>`, `<b/>`, `</a>`), the formatter produces exactly the claimed
indented three-line output; the original single-line input is left
unchanged, so whole-document formatting of it yields no edit. -/
theorem scenarioA_amended :
    formatXml "<a>\n<b/>\n</a>" ⟨2, some true⟩ defaultSettings = "<a>\n  <b/>\n</a>" ∧
      formatXmlDocument "<a><b/></a>" ⟨2, some true⟩ defaultSettings = [] :=
  ⟨by decide, by decide⟩

/-- Counterexample to C3: with `preserveNewLines = true` and
`maxPreserveNewLines = 1`, three consecutive blank lines between siblings
all survive — the output is not the claimed single-blank-line text. -/
theorem maxPreserveNewLines_counterexample :
    formatXml "<a>\n\n\n\n</a>" ⟨2, some true⟩
        ⟨some ⟨some ⟨none, none, some true, some (some 1), none, none, none, none⟩,
          none, none, none, none⟩⟩ = "<a>\n\n\n\n</a>" ∧
      ("<a>\n\n\n\n</a>" : String) ≠ "<a>\n\n</a>" :=
  ⟨by decide, by decide⟩

/-- C3 as amended: `maxPreserveNewLines` is accepted but ignored — the
output never depends on it — and with `preserveNewLines` enabled every
blank line is preserved as a bare newline, so runs of blank lines are kept
in full rather than truncated. -/
theorem maxPreserveNewLines_ignored (t : String) (o : FormattingOptions)
    (e : Option Bool) (w : Option Nat) (p : Option Bool) (m m2 : Option (Option Int))
    (ii : Option Bool) (wa : Option String) (was : Option (Option Nat))
    (u : Option String) (sg : Option XmlSuggestSettings)
    (vd : Option XmlValidateSettings) (act : Option Bool)
    (hv : Option XmlHoverSettings) :
    formatXml t o ⟨some ⟨some ⟨e, w, p, m, ii, wa, was, u⟩, sg, vd, act, hv⟩⟩ =
        formatXml t o ⟨some ⟨some ⟨e, w, p, m2, ii, wa, was, u⟩, sg, vd, act, hv⟩⟩ ∧
      formatXml "<a>\n\n\n\n</a>" ⟨2, some true⟩
        ⟨some ⟨some ⟨none, none, some true, some (some 1), none, none, none, none⟩,
          none, none, none, none⟩⟩ = "<a>\n\n\n\n</a>" :=
  ⟨rfl, by decide⟩

/-- Counterexample to C2: every physical line is trimmed before the
verbatim check, so the interior CDATA line `  raw   text  ` loses its
leading and trailing whitespace — the bytes of the span are not
reproduced exactly. -/
theorem cdata_trim_counterexample :
    formatXml "<x>\n<![CDATA[\n  raw   text  \n]]>\n</x>" ⟨2, some true⟩ defaultSettings =
        "<x>\n  <![CDATA[\nraw   text\n]]>\n</x>" ∧
      formatXml "<x>\n<![CDATA[\n  raw   text  \n]]>\n</x>" ⟨2, some true⟩ defaultSettings ≠
        "<x>\n  <![CDATA[\n  raw   text  \n]]>\n</x>" :=
  ⟨by decide, by decide⟩

/-- C2 as amended: inside a CDATA span each non-blank interior line that
does not itself contain the CDATA open marker is emitted as its *trimmed*
content followed by a newline, with no indent prefix and the depth
unchanged; the opening line is emitted with the indent prefix of the
active depth, and the verbatim flag is set unless the span closes on the
same line.  Leading and trailing whitespace of interior lines is stripped,
not preserved. -/
theorem cdata_verbatim_amended (ic : String) (pnl : Bool) (st : Int × Bool)
    (raw : String) :
    (st.2 = true → strContains (trimStr raw) "<![CDATA[" = false → trimStr raw ≠ "" →
      (formatStep ic pnl st raw).2 = trimStr raw ++ "\n" ∧
        (formatStep ic pnl st raw).1.1 = st.1) ∧
    (st.2 = false → strContains (trimStr raw) "<![CDATA[" = true →
      startsWithStr (trimStr raw) "<?" = false →
      startsWithStr (trimStr raw) "<!--" = false →
      (formatStep ic pnl st raw).2 = strRepeat ic st.1.toNat ++ trimStr raw ++ "\n" ∧
        (formatStep ic pnl st raw).1 = (st.1, !strContains (trimStr raw) "]]>")) := by
  constructor
  · intro h1 h2 h3
    simp only [formatStep]
    rw [if_neg h3]
    by_cases g : (startsWithStr (trimStr raw) "<?" || startsWithStr (trimStr raw) "<!--")
        = true
    · rw [if_pos g]
      exact ⟨rfl, rfl⟩
    · rw [if_neg g, if_neg (by simp [h2]), if_pos h1]
      exact ⟨rfl, rfl⟩
  · intro h1 h2 h3 h4
    simp only [formatStep]
    have h0 : ¬trimStr raw = "" := by
      intro he
      rw [he] at h2
      exact absurd h2 (by decide)
    rw [if_neg h0, if_neg (by simp [h3, h4]), if_pos h2]
    refine ⟨rfl, ?_⟩
    cases hb : strContains (trimStr raw) "]]>" <;> rfl

/-- Witness for the amended C2 at concrete verbatim lines: the interior
line `  raw   text  ` at depth 1 with the verbatim flag set, and the
opening line `<![CDATA[` at depth 3. -/
theorem cdata_verbatim_amended_witness :
    ((formatStep "  " true (1, true) "  raw   text  ").2 =
        trimStr "  raw   text  " ++ "\n" ∧
      (formatStep "  " true (1, true) "  raw   text  ").1.1 = 1) ∧
      (formatStep "  " true (3, false) "<![CDATA[").1 =
        (3, !strContains (trimStr "<![CDATA[") "]]>") :=
  ⟨(cdata_verbatim_amended "  " true (1, true) "  raw   text  ").1
      (by decide) (by decide) (by decide),
    ((cdata_verbatim_amended "  " true (3, false) "<![CDATA[").2
      (by decide) (by decide) (by decide) (by decide)).2⟩
